import Mathlib

/-!
Verification of the keybinding conflict scanner (`src/extension.ts`,
`src/scanner.ts`, `src/presenter.ts`, `src/resolver.ts`).

JavaScript strings are modelled as `List Char`.  `String.prototype.toLowerCase`
is modelled on the Latin alphabet (the only letters occurring in key combos),
`trim` removes the usual whitespace characters, `split(c)` and `join(c)` are
modelled by `splitOnChar`/`joinSep`.  `Array.prototype.sort` is a stable sort
(ES2019), modelled by the stable `List.insertionSort`; a JS `Map` keyed by
strings is modelled by an insertion-ordered association list, and a JS `Set`
of strings by a list whose `has` is membership.
-/

namespace KCS

abbrev Str := List Char

/-- Shorthand to write JS string literals as `List Char`. -/
def str (s : String) : Str := s.toList

/-- The uppercase/lowercase Latin pairs used by `toLowerCase` on key combos. -/
def upperLower : List (Char × Char) :=
  [('A', 'a'), ('B', 'b'), ('C', 'c'), ('D', 'd'), ('E', 'e'), ('F', 'f'),
   ('G', 'g'), ('H', 'h'), ('I', 'i'), ('J', 'j'), ('K', 'k'), ('L', 'l'),
   ('M', 'm'), ('N', 'n'), ('O', 'o'), ('P', 'p'), ('Q', 'q'), ('R', 'r'),
   ('S', 's'), ('T', 't'), ('U', 'u'), ('V', 'v'), ('W', 'w'), ('X', 'x'),
   ('Y', 'y'), ('Z', 'z')]

/-- `toLowerCase` on one character: uppercase Latin letters are mapped to
their lowercase counterpart, every other character is left unchanged. -/
def lowerChar (c : Char) : Char :=
  ((upperLower.find? (fun p => p.1 = c)).map (fun p => p.2)).getD c

/-- JS `String.prototype.toLowerCase`. -/
def jsToLower (s : Str) : Str := s.map lowerChar

/-- The whitespace characters removed by JS `String.prototype.trim`. -/
def isWsChar (c : Char) : Bool := c = ' ' || c = '\t' || c = '\n' || c = '\r'

/-- JS `String.prototype.trim`. -/
def trim (s : Str) : Str :=
  ((s.dropWhile isWsChar).reverse.dropWhile isWsChar).reverse

/-- JS `String.prototype.split(sep)` for a one-character separator:
splits at every occurrence, keeping empty pieces, and always returns at
least one piece. -/
def splitOnChar (sep : Char) : Str → List Str
  | [] => [[]]
  | c :: cs =>
    if c = sep then [] :: splitOnChar sep cs
    else
      match splitOnChar sep cs with
      | [] => [[c]]
      | p :: ps => (c :: p) :: ps

/-- JS `Array.prototype.join(sep)` for a one-character separator. -/
def joinSep (sep : Char) : List Str → Str
  | [] => []
  | [p] => p
  | p :: q :: rest => p ++ sep :: joinSep sep (q :: rest)

/-! ### The Key Normalizer (`KeybindingScanner.normalizeKey` and helpers) -/

/-- The modifier vocabulary of `KeybindingScanner.isModifierKey`. -/
def modifierVocabulary : List Str :=
  [str "ctrl", str "cmd", str "alt", str "shift", str "meta", str "win",
   str "command", str "option", str "control"]

/-- `KeybindingScanner.isModifierKey`. -/
def isModifierKey (key : Str) : Bool :=
  modifierVocabulary.contains (jsToLower key)

/-- The fixed modifier precedence order of `normalizeSingleKey`. -/
def modifierOrder : List Str :=
  [str "ctrl", str "cmd", str "alt", str "shift", str "meta", str "win"]

/-- JS `Array.prototype.indexOf` on `modifierOrder`: the index of the first
occurrence, `-1` when absent. -/
def modIdx (m : Str) : Int :=
  match modifierOrder.findIdx? (fun x => x == m) with
  | some i => (i : Int)
  | none => -1

/-- The comparator `(a, b) => indexA - indexB` used to sort modifiers,
read as a total preorder: `a` may come before `b` iff its index is not
larger. -/
def modLe (a b : Str) : Prop := modIdx a ≤ modIdx b

instance : DecidableRel modLe := fun a b => Int.decLe (modIdx a) (modIdx b)

instance : IsTotal Str modLe := ⟨fun a b => Int.le_total (modIdx a) (modIdx b)⟩

instance : IsTrans Str modLe := ⟨fun _ _ _ h1 h2 => le_trans h1 h2⟩

/-- The `.split('+').map(p => p.trim())` step of `normalizeSingleKey`. -/
def splitParts (s : Str) : List Str := (splitOnChar '+' s).map trim

/-- The modifier/main-key classification loop of `normalizeSingleKey`:
modifiers are collected in order, the last non-modifier part seen becomes
the main key (initially the empty string). -/
def classifyParts (parts : List Str) : List Str × Str :=
  parts.foldl
    (fun acc p => if isModifierKey p then (acc.1 ++ [p], acc.2) else (acc.1, p))
    ([], [])

/-- `KeybindingScanner.normalizeSingleKey`. -/
def normalizeSingleKey (key : Str) : Str :=
  let normalized := trim (jsToLower key)
  let parts := splitParts normalized
  if parts.length = 1 then normalized
  else
    let mainKey := (classifyParts parts).2
    let modifiers := List.insertionSort modLe (classifyParts parts).1
    if mainKey ≠ [] then joinSep '+' (modifiers ++ [mainKey])
    else joinSep '+' modifiers

/-- `KeybindingScanner.normalizeKey`: chords (space-separated) are split
first and each sub-combo is normalized independently. -/
def normalizeKey (key : Str) : Str :=
  let normalized := trim (jsToLower key)
  if ' ' ∈ normalized then
    joinSep ' ' ((splitOnChar ' ' normalized).map normalizeSingleKey)
  else normalizeSingleKey normalized

/-! ### Data model (`types.ts`) -/

/-- `KeybindingInfo` from `types.ts`. -/
structure KeybindingInfo where
  key : Str
  command : Str
  when : Option Str
  extensionId : Str
  extensionName : Str
deriving DecidableEq, Repr

/-- `ConflictGroup` from `types.ts`. -/
structure ConflictGroup where
  key : Str
  bindings : List KeybindingInfo
deriving DecidableEq, Repr

/-- One parsed entry of the user `keybindings.json` override list. -/
structure UserKeybindingEntry where
  key : Option Str
  command : Option Str
  when : Option Str
deriving DecidableEq, Repr

/-! ### The Conflict Detector (`KeybindingScanner`) -/

/-- `KeybindingScanner.getUserDisabledCommands`, applied to the parsed
override entries: a command is disabled when its entry's command starts
with `-` (the prefix is stripped) or when the entry's key is absent or
empty.  The JS `Set` is modelled as a list whose `has` is membership. -/
def getUserDisabledCommands (entries : List UserKeybindingEntry) : List Str :=
  entries.foldl
    (fun acc kb =>
      match kb.command with
      | none => acc
      | some c =>
        if c = [] then acc
        else if c.head? = some '-' then acc ++ [c.drop 1]
        else if kb.key = none ∨ kb.key = some [] then acc ++ [c]
        else acc)
    []

/-- One iteration of the grouping loop of `KeybindingScanner.findConflicts`:
bindings of user-disabled commands are skipped, the rest are appended to
the group of their (already normalized) key; the JS `Map` is modelled as
an insertion-ordered association list. -/
def stepGroup (disabled : List Str) (gs : List (Str × List KeybindingInfo))
    (b : KeybindingInfo) : List (Str × List KeybindingInfo) :=
  if disabled.contains b.command then gs
  else if gs.any (fun p => p.1 == b.key) then
    gs.map (fun p => if p.1 == b.key then (p.1, p.2 ++ [b]) else p)
  else gs ++ [(b.key, [b])]

/-- The grouping phase of `KeybindingScanner.findConflicts`. -/
def groupByKey (bindings : List KeybindingInfo) (disabled : List Str) :
    List (Str × List KeybindingInfo) :=
  bindings.foldl (stepGroup disabled) []

/-- Plain lexicographic comparison of strings by code point.  This is the
order the spec's "lexicographic string comparison" denotes; it is used to
state that property, not as the model of the runtime comparator. -/
def strLeB : Str → Str → Bool
  | [], _ => true
  | _ :: _, [] => false
  | a :: as, b :: bs => if a = b then strLeB as bs else decide (a < b)

/-- The primary collation weight of the characters that occur in
normalized key strings, following the root collation (CLDR/DUCET) that
`String.prototype.localeCompare` uses in the runtime: whitespace, then
punctuation (underscore and dashes before comma, semicolon, period,
quotes, brackets, slashes), then symbols (backtick before the math
symbols `+` and `=`), then digits, then letters.  Locale tailorings
reorder letters, not these ASCII punctuation and symbol primaries.
Characters outside the table do not occur in the keys exercised in this
development; they are mapped after it in code-point order as an
approximation. -/
def icuPrimary (c : Char) : Nat :=
  if c = '\t' then 1
  else if c = '\n' then 2
  else if c = '\r' then 3
  else if c = ' ' then 4
  else if c = '_' then 10
  else if c = '-' then 11
  else if c = ',' then 12
  else if c = ';' then 13
  else if c = '.' then 14
  else if c = Char.ofNat 39 then 15
  else if c = '[' then 16
  else if c = ']' then 17
  else if c = '/' then 18
  else if c = '\\' then 19
  else if c = Char.ofNat 96 then 30
  else if c = '+' then 31
  else if c = '=' then 32
  else if '0' ≤ c ∧ c ≤ '9' then 40 + (c.toNat - 48)
  else if 'a' ≤ c ∧ c ≤ 'z' then 60 + (c.toNat - 97)
  else 1000 + c.toNat

/-- Model of `String.prototype.localeCompare` on normalized key strings:
lexicographic comparison of the per-character primary collation weights,
as a total preorder `a ≤ b`.  This is exact for the printable-ASCII keys
exercised here: these characters carry single collation elements with
pairwise distinct primaries and no contractions, so ICU's sort-key
comparison reduces to exactly this. -/
def localeLeB : Str → Str → Bool
  | [], _ => true
  | _ :: _, [] => false
  | a :: as, b :: bs =>
    if icuPrimary a = icuPrimary b then localeLeB as bs
    else decide (icuPrimary a < icuPrimary b)

/-- The characters for which the runtime collation agrees with code-point
lexicographic order: space, `+`, digits and lowercase letters. -/
def sortableChars : List Char := str " +0123456789abcdefghijklmnopqrstuvwxyz"

/-- The comparator `(a, b) => a.key.localeCompare(b.key)` of the final
sort in `findConflicts`. -/
def groupLe (a b : ConflictGroup) : Prop := localeLeB a.key b.key = true

instance : DecidableRel groupLe := fun a b => by
  unfold groupLe; infer_instance

/-- `KeybindingScanner.findConflicts`: group the non-disabled bindings by
key, keep the groups with more than one member spanning more than one
distinct extension identifier, and sort the result by key. -/
def findConflicts (bindings : List KeybindingInfo) (disabled : List Str) :
    List ConflictGroup :=
  let grouped := groupByKey bindings disabled
  let conflicts :=
    (grouped.filter
        (fun p =>
          decide (p.2.length > 1) &&
          decide ((p.2.map (fun b => b.extensionId)).dedup.length > 1))).map
      (fun p => ConflictGroup.mk p.1 p.2)
  List.insertionSort groupLe conflicts

/-! ### Collection from manifests (`KeybindingScanner.collectAllKeybindings`) -/

/-- A manifest key field: JSON string or list of strings. -/
inductive KeyValue where
  | single (s : Str)
  | multi (ss : List Str)
deriving DecidableEq, Repr

/-- One `contributes.keybindings` entry of an extension manifest. -/
structure ManifestKeybinding where
  command : Str
  key : Option KeyValue
  mac : Option KeyValue
  linux : Option KeyValue
  win : Option KeyValue
  when : Option Str
deriving DecidableEq, Repr

/-- The part of an extension's `packageJSON` read by the scanner. -/
structure ExtensionManifest where
  id : Str
  displayName : Option Str
  name : Option Str
  keybindings : Option (List ManifestKeybinding)
deriving DecidableEq, Repr

/-- `process.platform` values distinguished by the scanner. -/
inductive Platform where
  | darwin
  | linux
  | win32
deriving DecidableEq, Repr

/-- JS truthiness of a key field: absent and the empty string are falsy,
arrays (even empty ones) are truthy. -/
def kvTruthy : Option KeyValue → Bool
  | none => false
  | some (KeyValue.single s) => !s.isEmpty
  | some (KeyValue.multi _) => true

/-- `Array.isArray(v) ? v : [v]` followed by `.filter(k => k)`. -/
def kvKeys : Option KeyValue → List Str
  | none => []
  | some (KeyValue.single s) => [s].filter (fun k => !k.isEmpty)
  | some (KeyValue.multi ss) => ss.filter (fun k => !k.isEmpty)

/-- The platform-priority key resolution of `collectAllKeybindings`:
a truthy platform-specific field wins, otherwise the generic `key`. -/
def keysToProcess (p : Platform) (kb : ManifestKeybinding) : List Str :=
  if p = Platform.darwin ∧ kvTruthy kb.mac then kvKeys kb.mac
  else if p = Platform.linux ∧ kvTruthy kb.linux then kvKeys kb.linux
  else if p = Platform.win32 ∧ kvTruthy kb.win then kvKeys kb.win
  else if kvTruthy kb.key then kvKeys kb.key
  else []

/-- `packageJSON.displayName || packageJSON.name || extensionId`. -/
def extName (m : ExtensionManifest) : Str :=
  match m.displayName with
  | some d => if d ≠ [] then d else
      match m.name with
      | some n => if n ≠ [] then n else m.id
      | none => m.id
  | none =>
      match m.name with
      | some n => if n ≠ [] then n else m.id
      | none => m.id

/-- `KeybindingScanner.collectAllKeybindings`: every resolved raw key of
every entry becomes one `KeybindingInfo` with the normalized key. -/
def collectAllKeybindings (exts : List ExtensionManifest) (p : Platform) :
    List KeybindingInfo :=
  exts.flatMap
    (fun ext =>
      match ext.keybindings with
      | none => []
      | some kbs =>
        kbs.flatMap
          (fun kb =>
            (keysToProcess p kb).map
              (fun k =>
                { key := normalizeKey k, command := kb.command, when := kb.when,
                  extensionId := ext.id, extensionName := extName ext })))

/-- The state of a `KeybindingScanner` after `scanConflicts`: the returned
conflict groups together with the full collected binding list stored in
`this.allBindings` (what `getAllBindings` returns). -/
structure ScanResult where
  conflicts : List ConflictGroup
  allBindings : List KeybindingInfo
deriving DecidableEq, Repr

/-- `KeybindingScanner.scanConflicts`: collect all keybindings, store them,
read the user-disabled commands, and filter for conflicts. -/
def scanConflicts (exts : List ExtensionManifest) (p : Platform)
    (entries : List UserKeybindingEntry) : ScanResult :=
  let allBindings := collectAllKeybindings exts p
  { conflicts := findConflicts allBindings (getUserDisabledCommands entries),
    allBindings := allBindings }

/-! ### Interactive validation (`ConflictPresenter.validateKeybinding`) -/

/-- The `validModifiers` list of the presenter (no synonyms here). -/
def validModifiers : List Str :=
  [str "ctrl", str "alt", str "shift", str "cmd", str "meta", str "win"]

/-- The character class `[a-z0-9+\s]` of the first validation regex. -/
def isAllowedChar (c : Char) : Bool :=
  (('a' ≤ c && c ≤ 'z') || ('0' ≤ c && c ≤ '9') || c = '+' || isWsChar c)

/-- The per-part regex `^([a-z]|f\d+|\d+|[...punctuation])$`: a single
lowercase letter, `f` followed by one or more digits, one or more digits,
or a single punctuation character (written by code point: backtick, `-`,
`=`, `[`, `]`, backslash, `;`, apostrophe, `,`, `.`, `/`). -/
def isValidKeyTok (p : Str) : Bool :=
  match p with
  | [c] =>
    (('a' ≤ c && c ≤ 'z') || ('0' ≤ c && c ≤ '9') ||
      [Char.ofNat 96, Char.ofNat 45, Char.ofNat 61, Char.ofNat 91,
        Char.ofNat 93, Char.ofNat 92, Char.ofNat 59, Char.ofNat 39,
        Char.ofNat 44, Char.ofNat 46, Char.ofNat 47].contains c)
  | 'f' :: rest => !rest.isEmpty && rest.all (fun c => '0' ≤ c && c ≤ '9')
  | _ => !p.isEmpty && p.all (fun c => '0' ≤ c && c ≤ '9')

/-- `normalized.split(/[\s+]/)`: split on any whitespace or `+`. -/
def splitWsPlus (s : Str) : List Str :=
  (splitOnChar '+' s).flatMap (fun p =>
    (splitOnChar ' ' p).flatMap (fun q =>
      (splitOnChar '\t' q).flatMap (fun u =>
        (splitOnChar '\n' u).flatMap (splitOnChar '\r'))))

/-- The validation outcomes of `ConflictPresenter.validateKeybinding`,
one constructor per distinct message the source returns; the conflict
message carries the conflicting command and extension display name it
names. -/
inductive ValidationError where
  | emptyInput
  | invalidChars
  | notAValidKey (part : Str)
  | invalidFormat
  | onlyModifiers
  | conflictsWith (command : Str) (extensionName : Str)
deriving DecidableEq, Repr

/-- The per-chord format loop of `validateKeybinding`: a chord with an
empty (whitespace-only) component is malformed; a chord that contains a
modifier and has exactly one component is modifier-only. -/
def chordError (chord : Str) : Option ValidationError :=
  let keys := splitOnChar '+' chord
  if keys.any (fun k => (trim k).isEmpty) then some ValidationError.invalidFormat
  else if keys.any (fun k => validModifiers.contains k) && keys.length == 1 then
    some ValidationError.onlyModifiers
  else none

/-- `ConflictPresenter.validateKeybinding`: `none` means the candidate is
accepted. -/
def validateKeybinding (value : Option Str) (currentBinding : KeybindingInfo)
    (allBindings : List KeybindingInfo) : Option ValidationError :=
  match value with
  | none => some ValidationError.emptyInput
  | some v =>
    if (trim v).isEmpty then some ValidationError.emptyInput
    else
      let normalized := trim (jsToLower v)
      if !(normalized.all isAllowedChar && !normalized.isEmpty) then
        some ValidationError.invalidChars
      else
        match (splitWsPlus normalized).find?
            (fun part => !part.isEmpty &&
              !(validModifiers.contains part || isValidKeyTok part)) with
        | some part => some (ValidationError.notAValidKey part)
        | none =>
          match (splitOnChar ' ' normalized).findSome? chordError with
          | some e => some e
          | none =>
            match allBindings.find?
                (fun b => b.key == normalized &&
                  b.command != currentBinding.command) with
            | some conflict =>
              some (ValidationError.conflictsWith conflict.command
                conflict.extensionName)
            | none => none

/-! ### Reassignment (`ConflictResolver.reassignKeybinding`) -/

/-- The error thrown by `reassignKeybinding` on a duplicate key, reduced
to the data the message names: the conflicting command and extension. -/
structure ReassignError where
  command : Str
  extensionName : Str
deriving DecidableEq, Repr

/-- `ConflictResolver.reassignKeybinding`, modelled on the parsed content
of `keybindings.json`: on a conflict it throws before anything is written
(`Except.error`, no updated file content); otherwise it appends the
disable entry (`-command`, original key) and the new entry and writes the
result back. -/
def reassignKeybinding (binding : KeybindingInfo) (newKey : Str)
    (allBindings : List KeybindingInfo)
    (currentKeybindings : List UserKeybindingEntry) :
    Except ReassignError (List UserKeybindingEntry) :=
  let normalizedNewKey := trim (jsToLower newKey)
  match allBindings.find?
      (fun b => b.key == normalizedNewKey && b.command != binding.command) with
  | some conflict =>
    Except.error { command := conflict.command,
                   extensionName := conflict.extensionName }
  | none =>
    let disableEntry : UserKeybindingEntry :=
      { key := some binding.key, command := some ('-' :: binding.command),
        when := binding.when }
    let newEntry : UserKeybindingEntry :=
      { key := some normalizedNewKey, command := some binding.command,
        when := binding.when }
    Except.ok (currentKeybindings ++ [disableEntry, newEntry])

/-! ### Helper predicates used by the statements and proofs -/

/-- Well-formedness of one (non-chord) sub-combo: the trimmed parts of its
`+`-split are all nonempty (no leading, trailing or doubled `+`). -/
def wfChord (c : Str) : Bool :=
  (splitParts (trim (jsToLower c))).all (fun p => !p.isEmpty)

/-- A well-formed key-combo string: every space-separated sub-combo of its
lowercased, trimmed form is a well-formed sub-combo (in particular no
doubled, leading or trailing spaces). -/
def wellFormedKey (s : Str) : Bool :=
  (splitOnChar ' ' (trim (jsToLower s))).all wfChord

/-- The bindings that survive the disabled-command filter and land in the
group of key `k`: specification of the grouping loop. -/
def liveFilter (k : Str) (bindings : List KeybindingInfo)
    (disabled : List Str) : List KeybindingInfo :=
  bindings.filter (fun b => b.key == k && !(disabled.contains b.command))

/-- A string all of whose characters are fixed by `toLowerCase`. -/
def IsLow (s : Str) : Prop := ∀ c ∈ s, lowerChar c = c

instance (s : Str) : Decidable (IsLow s) := by
  unfold IsLow
  infer_instance

/-- The invariant of normalized sub-combos: fixed by `trim` and
`toLowerCase`, and free of spaces. -/
def CleanPiece (c : Str) : Prop := trim c = c ∧ IsLow c ∧ ' ' ∉ c

/-! ### Concrete instances used to instantiate the theorems -/

/-- A binding of extension `ext.a` on `ctrl+x`. -/
def bA : KeybindingInfo :=
  { key := str "ctrl+x", command := str "a.one", when := none,
    extensionId := str "ext.a", extensionName := str "A" }

/-- A binding of extension `ext.b` on the same key `ctrl+x`. -/
def bB : KeybindingInfo :=
  { key := str "ctrl+x", command := str "b.one", when := none,
    extensionId := str "ext.b", extensionName := str "B" }

/-- A second binding of extension `ext.a` on `ctrl+x`, differing only by
context predicate. -/
def bA2 : KeybindingInfo :=
  { key := str "ctrl+x", command := str "a.two", when := some (str "edit"),
    extensionId := str "ext.a", extensionName := str "A" }

/-- A binding of extension `ext.c` on `ctrl+x`. -/
def bC1 : KeybindingInfo :=
  { key := str "ctrl+x", command := str "c.one", when := none,
    extensionId := str "ext.c", extensionName := str "C" }

/-- The conflict group of `bA` and `bB`. -/
def gAB : ConflictGroup := { key := str "ctrl+x", bindings := [bA, bB] }

/-- An override entry removing `c.one` via the `-` prefix. -/
def entDisableC : UserKeybindingEntry :=
  { key := some (str "ctrl+x"), command := some (str "-c.one"), when := none }

/-- An override entry disabling `a.one` via an absent key. -/
def entDisableA : UserKeybindingEntry :=
  { key := none, command := some (str "a.one"), when := none }

/-- A binding of extension `ext.a` on the punctuation key `ctrl+-`. -/
def bMinusA : KeybindingInfo :=
  { key := str "ctrl+-", command := str "a.min", when := none,
    extensionId := str "ext.a", extensionName := str "A" }

/-- A binding of extension `ext.b` on the punctuation key `ctrl+-`. -/
def bMinusB : KeybindingInfo :=
  { key := str "ctrl+-", command := str "b.min", when := none,
    extensionId := str "ext.b", extensionName := str "B" }

/-- A binding of extension `ext.a` on the punctuation key `ctrl+,`. -/
def bCommaA : KeybindingInfo :=
  { key := str "ctrl+,", command := str "a.com", when := none,
    extensionId := str "ext.a", extensionName := str "A" }

/-- A binding of extension `ext.b` on the punctuation key `ctrl+,`. -/
def bCommaB : KeybindingInfo :=
  { key := str "ctrl+,", command := str "b.com", when := none,
    extensionId := str "ext.b", extensionName := str "B" }

/-- The binding currently being reassigned in the validation scenarios. -/
def cb0 : KeybindingInfo :=
  { key := str "ctrl+k", command := str "my.cmd", when := none,
    extensionId := str "ext.a", extensionName := str "Ext A" }

/-- An existing binding on the canonical key `ctrl+shift+v` of another
command. -/
def b0 : KeybindingInfo :=
  { key := str "ctrl+shift+v", command := str "other.cmd", when := none,
    extensionId := str "ext.b", extensionName := str "Ext B" }

/-- A manifest contributing two bindings of the same extension on the same
key, one of which is user-disabled in the scenarios. -/
def mExtA : ExtensionManifest :=
  { id := str "ext.a", displayName := some (str "A"), name := none,
    keybindings := some
      [{ command := str "a.one", key := some (KeyValue.single (str "ctrl+x")),
         mac := none, linux := none, win := none, when := none },
       { command := str "a.two", key := some (KeyValue.single (str "ctrl+x")),
         mac := none, linux := none, win := none,
         when := some (str "edit") }] }

/-! ### Lemmas: the character/string model -/

theorem lowerChar_cases (c : Char) :
    lowerChar c = c ∨ ∃ p ∈ upperLower, p.1 = c ∧ lowerChar c = p.2 := by
  unfold lowerChar
  cases h : upperLower.find? (fun p => p.1 = c) with
  | none => exact Or.inl rfl
  | some p =>
    refine Or.inr ⟨p, List.mem_of_find?_eq_some h, ?_, rfl⟩
    have hp := List.find?_some h
    exact of_decide_eq_true hp

theorem lowerChar_lowerChar (c : Char) : lowerChar (lowerChar c) = lowerChar c := by
  rcases lowerChar_cases c with h | ⟨p, hp, _, h⟩
  · rw [h, h]
  · rw [h]
    exact (by decide : ∀ q ∈ upperLower, lowerChar q.2 = q.2) p hp

theorem lowerChar_eq_space {c : Char} (h : lowerChar c = ' ') : c = ' ' := by
  rcases lowerChar_cases c with h0 | ⟨p, hp, hc, h0⟩
  · rw [← h0]; exact h
  · exact absurd (h0 ▸ h)
      ((by decide : ∀ q ∈ upperLower, ¬ q.2 = ' ') p hp)

theorem isLow_jsToLower (s : Str) : IsLow (jsToLower s) := by
  intro c hc
  rw [jsToLower, List.mem_map] at hc
  obtain ⟨d, _, rfl⟩ := hc
  exact lowerChar_lowerChar d

theorem jsToLower_eq_self {s : Str} (h : IsLow s) : jsToLower s = s := by
  have h2 : s.map lowerChar = s.map id := List.map_congr_left h
  simpa [jsToLower] using h2

theorem isLow_of_subset {s t : Str} (hsub : ∀ c ∈ s, c ∈ t) (ht : IsLow t) :
    IsLow s := fun c hc => ht c (hsub c hc)

theorem not_mem_jsToLower_space {s : Str} (h : ' ' ∉ s) : ' ' ∉ jsToLower s := by
  intro hc
  rw [jsToLower, List.mem_map] at hc
  obtain ⟨d, hd, hl⟩ := hc
  exact h (lowerChar_eq_space hl ▸ hd)

theorem mem_trim {s : Str} {c : Char} (h : c ∈ trim s) : c ∈ s := by
  rw [trim, List.mem_reverse] at h
  have h1 := (List.dropWhile_sublist isWsChar).subset h
  rw [List.mem_reverse] at h1
  exact (List.dropWhile_sublist isWsChar).subset h1

theorem head?_dropWhile_false {p : α → Bool} {l : List α} {c : α}
    (h : (l.dropWhile p).head? = some c) : p c = false := by
  have h2 := List.head?_dropWhile_not p l
  rw [h] at h2
  exact h2

theorem dropWhile_eq_self_of_head {p : α → Bool} {l : List α}
    (h : ∀ c, l.head? = some c → p c = false) : l.dropWhile p = l := by
  cases l with
  | nil => rfl
  | cons a t => simp [List.dropWhile_cons, h a rfl]

theorem trim_eq_self {s : Str}
    (h1 : ∀ c, s.head? = some c → isWsChar c = false)
    (h2 : ∀ c, s.getLast? = some c → isWsChar c = false) : trim s = s := by
  rw [trim, dropWhile_eq_self_of_head h1,
    dropWhile_eq_self_of_head (fun c hc => h2 c (by rwa [List.head?_reverse] at hc)),
    List.reverse_reverse]

theorem getLast?_dropWhile {p : α → Bool} {l : List α}
    (h : l.dropWhile p ≠ []) : (l.dropWhile p).getLast? = l.getLast? := by
  induction l with
  | nil => simp at h
  | cons a t ih =>
    rw [List.dropWhile_cons] at h ⊢
    by_cases hp : p a = true
    · rw [if_pos hp] at h ⊢
      have ht : t ≠ [] := by rintro rfl; simp at h
      obtain ⟨b, t', rfl⟩ := List.exists_cons_of_ne_nil ht
      rw [ih h, List.getLast?_cons_cons]
    · rw [if_neg hp]

theorem trim_getLast_not_ws {s : Str} {c : Char}
    (h : (trim s).getLast? = some c) : isWsChar c = false := by
  rw [trim, List.getLast?_reverse] at h
  exact head?_dropWhile_false h

theorem trim_head_not_ws {s : Str} {c : Char}
    (h : (trim s).head? = some c) : isWsChar c = false := by
  rw [trim] at h
  rw [List.head?_reverse] at h
  have hne : (s.dropWhile isWsChar).reverse.dropWhile isWsChar ≠ [] := by
    rintro he; rw [he] at h; simp at h
  rw [getLast?_dropWhile hne, List.getLast?_reverse] at h
  exact head?_dropWhile_false h

theorem trim_trim (s : Str) : trim (trim s) = trim s :=
  trim_eq_self (fun _ => trim_head_not_ws) (fun _ => trim_getLast_not_ws)

theorem splitOnChar_ne_nil (sep : Char) (s : Str) : splitOnChar sep s ≠ [] := by
  cases s with
  | nil => simp [splitOnChar]
  | cons c cs =>
    rw [splitOnChar]
    by_cases h : c = sep
    · simp [h]
    · rw [if_neg h]
      cases splitOnChar sep cs <;> simp

theorem not_sep_of_mem_splitOnChar {sep : Char} {s p : Str}
    (h : p ∈ splitOnChar sep s) : sep ∉ p := by
  induction s generalizing p with
  | nil =>
    rw [splitOnChar, List.mem_singleton] at h
    subst h; exact List.not_mem_nil sep
  | cons c cs ih =>
    rw [splitOnChar] at h
    by_cases hc : c = sep
    · rw [if_pos hc, List.mem_cons] at h
      rcases h with rfl | h
      · exact List.not_mem_nil sep
      · exact ih h
    · rw [if_neg hc] at h
      cases hsp : splitOnChar sep cs with
      | nil => exact absurd hsp (splitOnChar_ne_nil sep cs)
      | cons q ps =>
        rw [hsp, List.mem_cons] at h
        rcases h with rfl | h
        · intro hm
          rcases List.mem_cons.mp hm with h | h
          · exact hc h.symm
          · exact ih (hsp ▸ List.mem_cons_self q ps) h
        · exact ih (hsp ▸ List.mem_cons_of_mem q h)

theorem mem_of_mem_splitOnChar {sep c : Char} {s p : Str}
    (hp : p ∈ splitOnChar sep s) (hc : c ∈ p) : c ∈ s := by
  induction s generalizing p with
  | nil =>
    rw [splitOnChar, List.mem_singleton] at hp
    subst hp; exact absurd hc (List.not_mem_nil c)
  | cons a cs ih =>
    rw [splitOnChar] at hp
    by_cases ha : a = sep
    · rw [if_pos ha, List.mem_cons] at hp
      rcases hp with rfl | hp
      · exact absurd hc (List.not_mem_nil c)
      · exact List.mem_cons_of_mem a (ih hp hc)
    · rw [if_neg ha] at hp
      cases hsp : splitOnChar sep cs with
      | nil => exact absurd hsp (splitOnChar_ne_nil sep cs)
      | cons q ps =>
        rw [hsp, List.mem_cons] at hp
        rcases hp with rfl | hp
        · rcases List.mem_cons.mp hc with rfl | h
          · exact List.mem_cons_self c cs
          · exact List.mem_cons_of_mem a
              (ih (hsp ▸ List.mem_cons_self q ps) h)
        · exact List.mem_cons_of_mem a
            (ih (hsp ▸ List.mem_cons_of_mem q hp) hc)

theorem splitOnChar_of_not_mem {sep : Char} {s : Str} (h : sep ∉ s) :
    splitOnChar sep s = [s] := by
  induction s with
  | nil => rfl
  | cons c cs ih =>
    have hc : ¬ c = sep := fun he => h (he ▸ List.mem_cons_self c cs)
    rw [splitOnChar, if_neg hc,
      ih (fun hm => h (List.mem_cons_of_mem c hm))]

theorem splitOnChar_append_sep {sep : Char} {p t : Str} (hp : sep ∉ p) :
    splitOnChar sep (p ++ sep :: t) = p :: splitOnChar sep t := by
  induction p with
  | nil => simp [splitOnChar]
  | cons c p' ih =>
    have hc : ¬ c = sep := fun he => hp (he ▸ List.mem_cons_self c p')
    rw [List.cons_append, splitOnChar, if_neg hc,
      ih (fun hm => hp (List.mem_cons_of_mem c hm))]

theorem splitOnChar_joinSep {sep : Char} {ls : List Str} (h : ls ≠ [])
    (hmem : ∀ p ∈ ls, sep ∉ p) :
    splitOnChar sep (joinSep sep ls) = ls := by
  induction ls with
  | nil => exact absurd rfl h
  | cons p rest ih =>
    cases rest with
    | nil =>
      rw [joinSep, splitOnChar_of_not_mem (hmem p (List.mem_cons_self p []))]
    | cons q rest' =>
      rw [joinSep, splitOnChar_append_sep (hmem p (List.mem_cons_self p _)),
        ih (by simp) (fun x hx => hmem x (List.mem_cons_of_mem p hx))]

theorem two_le_length_splitOnChar {sep : Char} {s : Str} (h : sep ∈ s) :
    2 ≤ (splitOnChar sep s).length := by
  induction s with
  | nil => exact absurd h (List.not_mem_nil sep)
  | cons c cs ih =>
    rw [splitOnChar]
    by_cases hc : c = sep
    · rw [if_pos hc, List.length_cons]
      have := splitOnChar_ne_nil sep cs
      cases hsp : splitOnChar sep cs with
      | nil => exact absurd hsp this
      | cons q ps => simp
    · rw [if_neg hc]
      have hcs : sep ∈ cs := by
        rcases List.mem_cons.mp h with rfl | h2
        · exact absurd rfl hc
        · exact h2
      cases hsp : splitOnChar sep cs with
      | nil => exact absurd hsp (splitOnChar_ne_nil sep cs)
      | cons q ps =>
        have := ih hcs
        rw [hsp] at this
        simpa using this

theorem not_mem_splitOnChar_of_length_one {sep : Char} {s : Str}
    (h : (splitOnChar sep s).length = 1) : sep ∉ s := by
  intro hm
  have := two_le_length_splitOnChar hm
  omega

theorem mem_joinSep {sep c : Char} {ls : List Str} (h : c ∈ joinSep sep ls) :
    c = sep ∨ ∃ p ∈ ls, c ∈ p := by
  induction ls with
  | nil => exact absurd h (List.not_mem_nil c)
  | cons p rest ih =>
    cases rest with
    | nil => exact Or.inr ⟨p, List.mem_cons_self p [], h⟩
    | cons q rest' =>
      rw [joinSep] at h
      rcases List.mem_append.mp h with h | h
      · exact Or.inr ⟨p, List.mem_cons_self p _, h⟩
      · rcases List.mem_cons.mp h with rfl | h
        · exact Or.inl rfl
        · rcases ih h with h | ⟨x, hx, hcx⟩
          · exact Or.inl h
          · exact Or.inr ⟨x, List.mem_cons_of_mem p hx, hcx⟩

theorem not_mem_joinSep {sep c : Char} {ls : List Str} (hc : ¬ c = sep)
    (h : ∀ p ∈ ls, c ∉ p) : c ∉ joinSep sep ls := by
  intro hm
  rcases mem_joinSep hm with h2 | ⟨p, hp, hcp⟩
  · exact hc h2
  · exact h p hp hcp

theorem sep_mem_joinSep {sep : Char} {ls : List Str} (h : 2 ≤ ls.length) :
    sep ∈ joinSep sep ls := by
  cases ls with
  | nil => simp at h
  | cons p rest =>
    cases rest with
    | nil => simp at h
    | cons q rest' =>
      rw [joinSep]
      exact List.mem_append.mpr (Or.inr (List.mem_cons_self sep _))

theorem joinSep_cons_cons_ne_nil {sep : Char} {p q : Str} {rest : List Str} :
    joinSep sep (p :: q :: rest) ≠ [] := by
  rw [joinSep]
  intro h
  have := List.append_eq_nil.mp h
  exact absurd this.2 (by simp)

theorem head?_joinSep_cons {sep : Char} {p : Str} {ls : List Str}
    (hp : p ≠ []) : (joinSep sep (p :: ls)).head? = p.head? := by
  cases ls with
  | nil => rfl
  | cons q rest =>
    rw [joinSep, List.head?_append]
    obtain ⟨a, t, rfl⟩ := List.exists_cons_of_ne_nil hp
    rfl

theorem getLast?_joinSep {sep : Char} {ls : List Str}
    (hne : ∀ p ∈ ls, p ≠ []) :
    (joinSep sep ls).getLast? = ls.getLast?.bind (fun p => p.getLast?) := by
  induction ls with
  | nil => rfl
  | cons p rest ih =>
    cases rest with
    | nil => rfl
    | cons q rest2 =>
      have hJne : joinSep sep (q :: rest2) ≠ [] := by
        cases rest2 with
        | nil => exact hne q (by simp)
        | cons r rest3 => exact joinSep_cons_cons_ne_nil
      have hJ := ih (fun x hx => hne x (List.mem_cons_of_mem p hx))
      rw [joinSep, List.getLast?_append, List.getLast?_cons_cons]
      have h1 : (sep :: joinSep sep (q :: rest2)).getLast? =
          (joinSep sep (q :: rest2)).getLast? := by
        obtain ⟨a, t, he⟩ := List.exists_cons_of_ne_nil hJne
        rw [he, List.getLast?_cons_cons]
      rw [h1, hJ]
      obtain ⟨x, hx⟩ : ∃ x, (q :: rest2).getLast? = some x :=
        ⟨(q :: rest2).getLast (by simp), List.getLast?_eq_getLast _ _⟩
      rw [hx]
      have hxne := hne x
        (List.mem_cons_of_mem p (List.mem_of_getLast?_eq_some hx))
      obtain ⟨c2, hc2⟩ : ∃ c2, x.getLast? = some c2 :=
        ⟨x.getLast hxne, List.getLast?_eq_getLast _ _⟩
      simp [hc2]

theorem head?_joinSep_cases {sep c : Char} {ls : List Str}
    (h : (joinSep sep ls).head? = some c) :
    c = sep ∨ ∃ p ∈ ls, p.head? = some c := by
  cases ls with
  | nil => simp [joinSep] at h
  | cons p rest =>
    cases rest with
    | nil => exact Or.inr ⟨p, List.mem_cons_self p [], h⟩
    | cons q rest2 =>
      rw [joinSep, List.head?_append] at h
      cases p with
      | nil =>
        simp at h
        exact Or.inl h.symm
      | cons a t =>
        exact Or.inr ⟨a :: t, List.mem_cons_self _ _, by simpa using h⟩

theorem getLast?_joinSep_cases {sep c : Char} {ls : List Str}
    (h : (joinSep sep ls).getLast? = some c) :
    c = sep ∨ ∃ p ∈ ls, p.getLast? = some c := by
  induction ls with
  | nil => simp [joinSep] at h
  | cons p rest ih =>
    cases rest with
    | nil => exact Or.inr ⟨p, List.mem_cons_self p [], h⟩
    | cons q rest2 =>
      rw [joinSep, List.getLast?_append] at h
      cases hJ : joinSep sep (q :: rest2) with
      | nil =>
        rw [hJ] at h
        simp at h
        exact Or.inl h.symm
      | cons a t =>
        rw [hJ, List.getLast?_cons_cons] at h
        have h2 : (a :: t).getLast? = some c := by
          obtain ⟨x, hx⟩ : ∃ x, (a :: t).getLast? = some x :=
            ⟨(a :: t).getLast (by simp), List.getLast?_eq_getLast _ _⟩
          rw [hx] at h
          simp at h
          rw [hx, h]
        rw [← hJ] at h2
        rcases ih h2 with h3 | ⟨x, hx, hxl⟩
        · exact Or.inl h3
        · exact Or.inr ⟨x, List.mem_cons_of_mem p hx, hxl⟩

/-! ### Lemmas: comparators and stable sorting -/

theorem localeLeB_total (a b : Str) :
    localeLeB a b = true ∨ localeLeB b a = true := by
  induction a generalizing b with
  | nil => exact Or.inl rfl
  | cons x xs ih =>
    cases b with
    | nil => exact Or.inr rfl
    | cons y ys =>
      by_cases hxy : icuPrimary x = icuPrimary y
      · rw [localeLeB, if_pos hxy, localeLeB, if_pos hxy.symm]
        exact ih ys
      · have hyx : ¬ icuPrimary y = icuPrimary x := fun he => hxy he.symm
        rcases Nat.lt_trichotomy (icuPrimary x) (icuPrimary y) with h | h | h
        · exact Or.inl (by rw [localeLeB, if_neg hxy]; exact decide_eq_true h)
        · exact absurd h hxy
        · exact Or.inr (by rw [localeLeB, if_neg hyx]; exact decide_eq_true h)

theorem localeLeB_trans {a b c : Str} (h1 : localeLeB a b = true)
    (h2 : localeLeB b c = true) : localeLeB a c = true := by
  induction a generalizing b c with
  | nil => rfl
  | cons x xs ih =>
    cases b with
    | nil => simp [localeLeB] at h1
    | cons y ys =>
      cases c with
      | nil => simp [localeLeB] at h2
      | cons z zs =>
        by_cases hxy : icuPrimary x = icuPrimary y <;>
          by_cases hyz : icuPrimary y = icuPrimary z
        · rw [localeLeB, if_pos hxy] at h1
          rw [localeLeB, if_pos hyz] at h2
          rw [localeLeB, if_pos (hxy.trans hyz)]
          exact ih h1 h2
        · rw [localeLeB, if_neg hyz] at h2
          rw [localeLeB, if_neg (fun he => hyz (hxy.symm.trans he)), hxy]
          exact h2
        · rw [localeLeB, if_neg hxy] at h1
          rw [localeLeB, if_neg (fun he => hxy (he.trans hyz.symm)), ← hyz]
          exact h1
        · rw [localeLeB, if_neg hxy] at h1
          rw [localeLeB, if_neg hyz] at h2
          have hlt : icuPrimary x < icuPrimary z :=
            Nat.lt_trans (of_decide_eq_true h1) (of_decide_eq_true h2)
          rw [localeLeB, if_neg (Nat.ne_of_lt hlt)]
          exact decide_eq_true hlt

instance : IsTotal ConflictGroup groupLe :=
  ⟨fun a b => localeLeB_total a.key b.key⟩

instance : IsTrans ConflictGroup groupLe :=
  ⟨fun _ _ _ h1 h2 => localeLeB_trans h1 h2⟩

/-- On the characters of `sortableChars`, equal primary collation weight
means equal character and the weight order is the code-point order. -/
theorem icu_agree_char :
    ∀ c ∈ sortableChars, ∀ d ∈ sortableChars,
      (icuPrimary c = icuPrimary d ↔ c = d) ∧
        (icuPrimary c < icuPrimary d ↔ c < d) := by
  decide

/-- On keys over space, `+`, digits and lowercase letters, the modelled
runtime collation coincides with code-point lexicographic comparison. -/
theorem localeLeB_eq_strLeB :
    ∀ a b : Str, (∀ c ∈ a, c ∈ sortableChars) →
      (∀ c ∈ b, c ∈ sortableChars) → localeLeB a b = strLeB a b := by
  intro a
  induction a with
  | nil =>
    intro b _ _
    rfl
  | cons x xs ih =>
    intro b ha hb
    cases b with
    | nil => rfl
    | cons y ys =>
      have hx := ha x (List.mem_cons_self x xs)
      have hy := hb y (List.mem_cons_self y ys)
      have hagree := icu_agree_char x hx y hy
      by_cases hxy : x = y
      · subst hxy
        rw [localeLeB, if_pos rfl, strLeB, if_pos rfl]
        exact ih ys (fun c hc => ha c (List.mem_cons_of_mem x hc))
          (fun c hc => hb c (List.mem_cons_of_mem x hc))
      · have hpne : ¬ icuPrimary x = icuPrimary y :=
          fun he => hxy (hagree.1.mp he)
        rw [localeLeB, if_neg hpne, strLeB, if_neg hxy]
        exact decide_eq_decide.mpr hagree.2

/-- Two sorted permutations of each other are equal as soon as ties among
their elements force equality (antisymmetry on the elements present). -/
theorem sorted_perm_eq_on {α : Type} {r : α → α → Prop} :
    ∀ {l1 l2 : List α}, l1.Perm l2 → l1.Pairwise r → l2.Pairwise r →
      (∀ a ∈ l1, ∀ b ∈ l1, r a b → r b a → a = b) → l1 = l2 := by
  intro l1
  induction l1 with
  | nil =>
    intro l2 hp _ _ _
    exact (List.Perm.eq_nil hp.symm).symm
  | cons x xs ih =>
    intro l2 hp h1 h2 hanti
    have hx2 : x ∈ l2 := hp.mem_iff.mp (List.mem_cons_self x xs)
    cases l2 with
    | nil => exact absurd hx2 (List.not_mem_nil x)
    | cons y ys =>
      have hy1 : y ∈ x :: xs := hp.mem_iff.mpr (List.mem_cons_self y ys)
      have hxy : x = y := by
        rcases List.mem_cons.mp hx2 with h | hxys
        · exact h
        · rcases List.mem_cons.mp hy1 with h | hyxs
          · exact h.symm
          · have rxy : r x y := (List.pairwise_cons.mp h1).1 y hyxs
            have ryx : r y x := (List.pairwise_cons.mp h2).1 x hxys
            exact hanti x (List.mem_cons_self x xs) y hy1 rxy ryx
      subst hxy
      have hptail := hp.cons_inv
      rw [ih hptail (List.pairwise_cons.mp h1).2 (List.pairwise_cons.mp h2).2
        (fun a ha b hb hab hba =>
          hanti a (List.mem_cons_of_mem x ha) b (List.mem_cons_of_mem x hb)
            hab hba)]

/-- A list all of whose elements are one value deduplicates to at most a
singleton. -/
theorem dedup_length_le_one {α : Type} [DecidableEq α] {l : List α} {e : α}
    (h : ∀ x ∈ l, x = e) : l.dedup.length ≤ 1 := by
  cases hd : l.dedup with
  | nil => simp
  | cons a t =>
    cases t with
    | nil => simp
    | cons b t2 =>
      have hnd : l.dedup.Nodup := List.nodup_dedup l
      rw [hd] at hnd
      have ha : a = e := h a (List.mem_dedup.mp (hd ▸ List.mem_cons_self a _))
      have hb : b = e := h b (List.mem_dedup.mp
        (hd ▸ List.mem_cons_of_mem a (List.mem_cons_self b t2)))
      have : a ≠ b := by
        have := List.pairwise_cons.mp hnd
        exact this.1 b (List.mem_cons_self b t2)
      exact absurd (ha.trans hb.symm) this

/-! ### Lemmas: the normalizer -/

theorem classifyParts_go (parts : List Str) (acc : List Str × Str) :
    parts.foldl
        (fun acc p =>
          if isModifierKey p then (acc.1 ++ [p], acc.2) else (acc.1, p)) acc =
      (acc.1 ++ parts.filter (fun p => isModifierKey p),
        (parts.filter (fun p => !isModifierKey p)).getLastD acc.2) := by
  induction parts generalizing acc with
  | nil => simp
  | cons p rest ih =>
    rw [List.foldl_cons]
    by_cases hp : isModifierKey p = true
    · rw [if_pos hp, ih]
      simp [List.filter_cons, hp]
    · rw [if_neg hp, ih]
      simp only [List.filter_cons]
      rw [if_neg (by simpa using hp), if_pos (by simpa using hp),
        List.getLastD_cons]

theorem classifyParts_eq (parts : List Str) :
    classifyParts parts =
      (parts.filter (fun p => isModifierKey p),
        (parts.filter (fun p => !isModifierKey p)).getLastD []) := by
  rw [classifyParts, classifyParts_go]
  simp

theorem classifyParts_fst (parts : List Str) :
    (classifyParts parts).1 = parts.filter (fun p => isModifierKey p) := by
  rw [classifyParts_eq]

theorem classifyParts_snd (parts : List Str) :
    (classifyParts parts).2 =
      (parts.filter (fun p => !isModifierKey p)).getLastD [] := by
  rw [classifyParts_eq]

theorem getLastD_mem {α : Type} {l : List α} (h : l ≠ []) (d : α) :
    l.getLastD d ∈ l := by
  rw [List.getLastD_eq_getLast?, List.getLast?_eq_getLast l h]
  exact List.getLast_mem h

theorem mainKey_spec (parts : List Str) :
    (classifyParts parts).2 = [] ∨
      ((classifyParts parts).2 ∈ parts ∧
        isModifierKey (classifyParts parts).2 = false) := by
  rw [classifyParts_eq]
  dsimp only
  by_cases h : parts.filter (fun p => !isModifierKey p) = []
  · rw [h]; exact Or.inl rfl
  · refine Or.inr ?_
    have hm := getLastD_mem h ([] : Str)
    have h2 := List.mem_filter.mp hm
    exact ⟨h2.1, by simpa using h2.2⟩

theorem mods_spec (parts : List Str) :
    ∀ m ∈ (classifyParts parts).1, m ∈ parts ∧ isModifierKey m = true := by
  rw [classifyParts_eq]
  dsimp only
  intro m hm
  have h2 := List.mem_filter.mp hm
  exact ⟨h2.1, h2.2⟩

theorem splitParts_facts {s : Str} :
    ∀ p ∈ splitParts s, trim p = p ∧ '+' ∉ p ∧ ∀ c ∈ p, c ∈ s := by
  intro p hp
  rw [splitParts, List.mem_map] at hp
  obtain ⟨q, hq, rfl⟩ := hp
  refine ⟨trim_trim q, ?_, ?_⟩
  · exact fun hm => not_sep_of_mem_splitOnChar hq (mem_trim hm)
  · exact fun c hc => mem_of_mem_splitOnChar hq (mem_trim hc)

theorem trim_joinSep_fix {sep : Char} {ls : List Str}
    (hsep : isWsChar sep = false) (h : ∀ p ∈ ls, trim p = p) :
    trim (joinSep sep ls) = joinSep sep ls := by
  refine trim_eq_self ?_ ?_
  · intro c hc
    rcases head?_joinSep_cases hc with rfl | ⟨p, hp, hph⟩
    · exact hsep
    · exact trim_head_not_ws ((h p hp) ▸ hph)
  · intro c hc
    rcases getLast?_joinSep_cases hc with rfl | ⟨p, hp, hpl⟩
    · exact hsep
    · exact trim_getLast_not_ws ((h p hp) ▸ hpl)

theorem isLow_joinSep {sep : Char} {ls : List Str}
    (hsep : lowerChar sep = sep) (h : ∀ p ∈ ls, IsLow p) :
    IsLow (joinSep sep ls) := by
  intro c hc
  rcases mem_joinSep hc with rfl | ⟨p, hp, hcp⟩
  · exact hsep
  · exact h p hp c hcp

theorem normalizeSingleKey_eq (key : Str) :
    normalizeSingleKey key =
      if (splitParts (trim (jsToLower key))).length = 1 then
        trim (jsToLower key)
      else if (classifyParts (splitParts (trim (jsToLower key)))).2 ≠ [] then
        joinSep '+'
          (List.insertionSort modLe
              (classifyParts (splitParts (trim (jsToLower key)))).1 ++
            [(classifyParts (splitParts (trim (jsToLower key)))).2])
      else
        joinSep '+'
          (List.insertionSort modLe
            (classifyParts (splitParts (trim (jsToLower key)))).1) := rfl

theorem normalizeKey_eq (key : Str) :
    normalizeKey key =
      if ' ' ∈ trim (jsToLower key) then
        joinSep ' '
          ((splitOnChar ' ' (trim (jsToLower key))).map normalizeSingleKey)
      else normalizeSingleKey (trim (jsToLower key)) := rfl

theorem splitParts_ne_nil (s : Str) : splitParts s ≠ [] := by
  rw [splitParts]
  intro h
  exact splitOnChar_ne_nil '+' s (List.map_eq_nil_iff.mp h)

/-- Every element of the reconstructed part list of `normalizeSingleKey`
comes from the original part list. -/
theorem sortedMods_mem {parts : List Str} {m : Str}
    (hm : m ∈ List.insertionSort modLe (classifyParts parts).1) :
    m ∈ parts ∧ isModifierKey m = true :=
  mods_spec parts m
    ((List.perm_insertionSort modLe (classifyParts parts).1).mem_iff.mp hm)

theorem splitParts_joinSep_plus {L : List Str} (hne : L ≠ [])
    (hplus : ∀ p ∈ L, '+' ∉ p) (htr : ∀ p ∈ L, trim p = p) :
    splitParts (joinSep '+' L) = L := by
  rw [splitParts, splitOnChar_joinSep hne hplus]
  have h2 : L.map trim = L.map id := List.map_congr_left htr
  simpa using h2

/-- Cleanliness of `normalizeSingleKey` on space-free input: the result is
fixed by `trim` and `toLowerCase` and contains no space. -/
theorem nsk_clean {key : Str} (hs : ' ' ∉ key) :
    CleanPiece (normalizeSingleKey key) := by
  have hnLow : IsLow (trim (jsToLower key)) :=
    isLow_of_subset (fun _ hc => mem_trim hc) (isLow_jsToLower key)
  have hnSp : ' ' ∉ trim (jsToLower key) :=
    fun hc => not_mem_jsToLower_space hs (mem_trim hc)
  have hclean : ∀ L : List Str,
      (∀ p ∈ L, p ∈ splitParts (trim (jsToLower key))) →
      CleanPiece (joinSep '+' L) := by
    intro L hL
    have htr : ∀ p ∈ L, trim p = p :=
      fun p hp => (splitParts_facts p (hL p hp)).1
    refine ⟨trim_joinSep_fix (by decide) htr, ?_, ?_⟩
    · refine isLow_joinSep (by decide) ?_
      exact fun p hp =>
        isLow_of_subset (splitParts_facts p (hL p hp)).2.2 hnLow
    · refine not_mem_joinSep (by decide) ?_
      exact fun p hp hm => hnSp ((splitParts_facts p (hL p hp)).2.2 ' ' hm)
  rw [normalizeSingleKey_eq]
  split_ifs with h1 h2
  · exact ⟨trim_trim _, hnLow, hnSp⟩
  · refine hclean _ ?_
    intro p hp
    rcases List.mem_append.mp hp with hp | hp
    · exact (sortedMods_mem hp).1
    · rw [List.mem_singleton] at hp
      subst hp
      rcases mainKey_spec (splitParts (trim (jsToLower key))) with hc | hc
      · exact absurd hc h2
      · exact hc.1
  · exact hclean _ (fun p hp => (sortedMods_mem hp).1)

theorem nsk_ne_nil {key : Str} (hw : wfChord key = true) :
    normalizeSingleKey key ≠ [] := by
  rw [wfChord, List.all_eq_true] at hw
  have hparts : ∀ p ∈ splitParts (trim (jsToLower key)), p ≠ [] := by
    intro p hp
    have := hw p hp
    simpa using this
  rw [normalizeSingleKey_eq]
  split_ifs with h1 h2
  · intro hn
    have hmem : ([] : Str) ∈ splitParts (trim (jsToLower key)) := by
      rw [hn]; decide
    exact hparts [] hmem rfl
  · cases hsrt : List.insertionSort modLe
        (classifyParts (splitParts (trim (jsToLower key)))).1 with
    | nil =>
      rw [List.nil_append]
      intro hj
      rcases mainKey_spec (splitParts (trim (jsToLower key))) with hc | hc
      · exact h2 hc
      · exact hparts _ hc.1 (by simpa [joinSep] using hj)
    | cons a t =>
      rw [List.cons_append]
      obtain ⟨b, t2, ht2⟩ :
          ∃ b t2, t ++ [(classifyParts (splitParts (trim (jsToLower key)))).2]
            = b :: t2 :=
        List.exists_cons_of_ne_nil (by simp)
      rw [ht2]
      exact joinSep_cons_cons_ne_nil
  · have hmk : (classifyParts (splitParts (trim (jsToLower key)))).2 = [] := by
      by_contra hc; exact h2 hc
    have hfilnil : (splitParts (trim (jsToLower key))).filter
        (fun p => !isModifierKey p) = [] := by
      by_contra hc
      have hmem := getLastD_mem hc ([] : Str)
      have h3 := List.mem_filter.mp hmem
      have h4 := hparts _ h3.1
      rw [classifyParts_snd] at hmk
      exact h4 hmk
    have hall : ∀ p ∈ splitParts (trim (jsToLower key)),
        isModifierKey p = true := by
      intro p hp
      have := List.filter_eq_nil_iff.mp hfilnil p hp
      simpa using this
    have hfst : (classifyParts (splitParts (trim (jsToLower key)))).1 =
        splitParts (trim (jsToLower key)) := by
      rw [classifyParts_fst]
      exact List.filter_eq_self.mpr hall
    have hlen2 : 2 ≤ (List.insertionSort modLe
        (classifyParts (splitParts (trim (jsToLower key)))).1).length := by
      rw [(List.perm_insertionSort modLe _).length_eq, hfst]
      have hne := splitParts_ne_nil (trim (jsToLower key))
      have : 1 ≤ (splitParts (trim (jsToLower key))).length :=
        List.length_pos.mpr hne
      omega
    cases hsrt : List.insertionSort modLe
        (classifyParts (splitParts (trim (jsToLower key)))).1 with
    | nil => rw [hsrt] at hlen2; simp at hlen2
    | cons a t =>
      cases t with
      | nil => rw [hsrt] at hlen2; simp at hlen2
      | cons b t2 => exact joinSep_cons_cons_ne_nil

/-- Re-normalizing a reconstructed sub-combo `mods + mainKey` sorts the
modifier list and keeps the main key last. -/
theorem nsk_joinSep_mods_main {ms : List Str} {mk : Str}
    (hmods : ∀ m ∈ ms, isModifierKey m = true)
    (hclean : ∀ p ∈ ms ++ [mk], trim p = p ∧ IsLow p ∧ '+' ∉ p ∧ ' ' ∉ p)
    (hmk : isModifierKey mk = false) (hmkne : mk ≠ []) :
    normalizeSingleKey (joinSep '+' (ms ++ [mk])) =
      joinSep '+' (List.insertionSort modLe ms ++ [mk]) := by
  have htrim0 : trim (joinSep '+' (ms ++ [mk])) = joinSep '+' (ms ++ [mk]) :=
    trim_joinSep_fix (by decide) (fun p hp => (hclean p hp).1)
  have hlow0 : jsToLower (joinSep '+' (ms ++ [mk])) = joinSep '+' (ms ++ [mk]) :=
    jsToLower_eq_self (isLow_joinSep (by decide) (fun p hp => (hclean p hp).2.1))
  have hsplit : splitParts (joinSep '+' (ms ++ [mk])) = ms ++ [mk] :=
    splitParts_joinSep_plus (by simp) (fun p hp => (hclean p hp).2.2.1)
      (fun p hp => (hclean p hp).1)
  rw [normalizeSingleKey_eq, hlow0, htrim0, hsplit]
  cases ms with
  | nil =>
    simp only [List.nil_append]
    rw [if_pos (by simp)]
    rfl
  | cons m ms2 =>
    rw [if_neg (by simp)]
    have hfst : (classifyParts ((m :: ms2) ++ [mk])).1 = m :: ms2 := by
      rw [classifyParts_fst, List.filter_append,
        List.filter_eq_self.mpr hmods]
      simp [List.filter_cons, hmk]
    have hsnd : (classifyParts ((m :: ms2) ++ [mk])).2 = mk := by
      rw [classifyParts_snd, List.filter_append,
        List.filter_eq_nil_iff.mpr (fun a ha => by simp [hmods a ha])]
      simp [List.filter_cons, hmk]
    rw [hfst, hsnd, if_pos hmkne]

/-- Re-normalizing a reconstructed modifier-only sub-combo sorts the
modifier list. -/
theorem nsk_joinSep_mods {ms : List Str}
    (hmods : ∀ m ∈ ms, isModifierKey m = true)
    (hclean : ∀ p ∈ ms, trim p = p ∧ IsLow p ∧ '+' ∉ p ∧ ' ' ∉ p)
    (hlen : 2 ≤ ms.length) :
    normalizeSingleKey (joinSep '+' ms) =
      joinSep '+' (List.insertionSort modLe ms) := by
  have htrim0 : trim (joinSep '+' ms) = joinSep '+' ms :=
    trim_joinSep_fix (by decide) (fun p hp => (hclean p hp).1)
  have hlow0 : jsToLower (joinSep '+' ms) = joinSep '+' ms :=
    jsToLower_eq_self (isLow_joinSep (by decide) (fun p hp => (hclean p hp).2.1))
  have hmsne : ms ≠ [] := by
    intro hc; rw [hc] at hlen; simp at hlen
  have hsplit : splitParts (joinSep '+' ms) = ms :=
    splitParts_joinSep_plus hmsne (fun p hp => (hclean p hp).2.2.1)
      (fun p hp => (hclean p hp).1)
  rw [normalizeSingleKey_eq, hlow0, htrim0, hsplit]
  rw [if_neg (by omega)]
  have hfst : (classifyParts ms).1 = ms := by
    rw [classifyParts_fst]; exact List.filter_eq_self.mpr hmods
  have hsnd : (classifyParts ms).2 = [] := by
    rw [classifyParts_snd,
      List.filter_eq_nil_iff.mpr (fun a ha => by simp [hmods a ha])]
    rfl
  rw [hfst, hsnd, if_neg (by simp)]

/-- `normalizeSingleKey` is idempotent on space-free well-formed
sub-combos. -/
theorem nsk_fix {key : Str} (hs : ' ' ∉ key) (hw : wfChord key = true) :
    normalizeSingleKey (normalizeSingleKey key) = normalizeSingleKey key := by
  have hnLow : IsLow (trim (jsToLower key)) :=
    isLow_of_subset (fun _ hc => mem_trim hc) (isLow_jsToLower key)
  have hnSp : ' ' ∉ trim (jsToLower key) :=
    fun hc => not_mem_jsToLower_space hs (mem_trim hc)
  have hparts : ∀ p ∈ splitParts (trim (jsToLower key)), p ≠ [] := by
    rw [wfChord, List.all_eq_true] at hw
    intro p hp; simpa using hw p hp
  have hcleanP : ∀ p ∈ splitParts (trim (jsToLower key)),
      trim p = p ∧ IsLow p ∧ '+' ∉ p ∧ ' ' ∉ p := by
    intro p hp
    obtain ⟨h1, h2, h3⟩ := splitParts_facts p hp
    exact ⟨h1, isLow_of_subset h3 hnLow, h2, fun hm => hnSp (h3 ' ' hm)⟩
  by_cases hc1 : (splitParts (trim (jsToLower key))).length = 1
  · have he : normalizeSingleKey key = trim (jsToLower key) := by
      rw [normalizeSingleKey_eq key, if_pos hc1]
    rw [he, normalizeSingleKey_eq, jsToLower_eq_self hnLow, trim_trim,
      if_pos hc1]
  · by_cases hc2 : (classifyParts (splitParts (trim (jsToLower key)))).2 ≠ []
    · have he : normalizeSingleKey key =
          joinSep '+'
            (List.insertionSort modLe
                (classifyParts (splitParts (trim (jsToLower key)))).1 ++
              [(classifyParts (splitParts (trim (jsToLower key)))).2]) := by
        rw [normalizeSingleKey_eq key, if_neg hc1, if_pos hc2]
      obtain ⟨hmkP, hmkmod⟩ :
          (classifyParts (splitParts (trim (jsToLower key)))).2 ∈
              splitParts (trim (jsToLower key)) ∧
            isModifierKey
              (classifyParts (splitParts (trim (jsToLower key)))).2 = false := by
        rcases mainKey_spec (splitParts (trim (jsToLower key))) with hcx | hcx
        · exact absurd hcx hc2
        · exact hcx
      rw [he,
        nsk_joinSep_mods_main (fun m hm => (sortedMods_mem hm).2)
          (fun p hp => by
            rcases List.mem_append.mp hp with hp | hp
            · exact hcleanP p (sortedMods_mem hp).1
            · rw [List.mem_singleton] at hp; subst hp; exact hcleanP _ hmkP)
          hmkmod hc2,
        List.Sorted.insertionSort_eq (List.sorted_insertionSort modLe _)]
    · have hmk : (classifyParts (splitParts (trim (jsToLower key)))).2 = [] := by
        by_contra h2; exact hc2 h2
      have hfilnil : (splitParts (trim (jsToLower key))).filter
          (fun p => !isModifierKey p) = [] := by
        by_contra hcq
        have hmem := getLastD_mem hcq ([] : Str)
        have h3 := List.mem_filter.mp hmem
        rw [classifyParts_snd] at hmk
        exact hparts _ h3.1 hmk
      have hallP : ∀ p ∈ splitParts (trim (jsToLower key)),
          isModifierKey p = true := by
        intro p hp
        have := List.filter_eq_nil_iff.mp hfilnil p hp
        simpa using this
      have hfst : (classifyParts (splitParts (trim (jsToLower key)))).1 =
          splitParts (trim (jsToLower key)) := by
        rw [classifyParts_fst]; exact List.filter_eq_self.mpr hallP
      have he : normalizeSingleKey key =
          joinSep '+'
            (List.insertionSort modLe
              (classifyParts (splitParts (trim (jsToLower key)))).1) := by
        rw [normalizeSingleKey_eq key, if_neg hc1, if_neg hc2]
      have hsperm := List.perm_insertionSort modLe
        (classifyParts (splitParts (trim (jsToLower key)))).1
      have hlen : 2 ≤ (List.insertionSort modLe
          (classifyParts (splitParts (trim (jsToLower key)))).1).length := by
        rw [hsperm.length_eq, hfst]
        have := List.length_pos.mpr (splitParts_ne_nil (trim (jsToLower key)))
        omega
      rw [he,
        nsk_joinSep_mods
          (fun m hm => hallP m (hfst ▸ hsperm.mem_iff.mp hm))
          (fun p hp => hcleanP p (hfst ▸ hsperm.mem_iff.mp hp)) hlen,
        List.Sorted.insertionSort_eq (List.sorted_insertionSort modLe _)]

set_option maxHeartbeats 1000000 in
/-- The key idempotence lemma: `normalizeKey` is idempotent on well-formed
key-combo strings. -/
theorem normalizeKey_idem {s : Str} (h : wellFormedKey s = true) :
    normalizeKey (normalizeKey s) = normalizeKey s := by
  have hw := h
  rw [wellFormedKey, List.all_eq_true] at hw
  by_cases hsp : ' ' ∈ trim (jsToLower s)
  · have heq : normalizeKey s =
        joinSep ' '
          ((splitOnChar ' ' (trim (jsToLower s))).map normalizeSingleKey) := by
      rw [normalizeKey_eq, if_pos hsp]
    have hpieces : ∀ q ∈ (splitOnChar ' ' (trim (jsToLower s))).map
        normalizeSingleKey, CleanPiece q ∧ q ≠ [] := by
      intro q hq
      rw [List.mem_map] at hq
      obtain ⟨chord, hchord, rfl⟩ := hq
      exact ⟨nsk_clean (not_sep_of_mem_splitOnChar hchord),
        nsk_ne_nil (hw chord hchord)⟩
    have hpne : (splitOnChar ' ' (trim (jsToLower s))).map
        normalizeSingleKey ≠ [] := by
      intro hc
      exact splitOnChar_ne_nil ' ' _ (List.map_eq_nil_iff.mp hc)
    have hrtrim : trim (joinSep ' '
          ((splitOnChar ' ' (trim (jsToLower s))).map normalizeSingleKey)) =
        joinSep ' '
          ((splitOnChar ' ' (trim (jsToLower s))).map normalizeSingleKey) := by
      refine trim_eq_self ?_ ?_
      · intro c hc
        obtain ⟨q0, qs, hqs⟩ := List.exists_cons_of_ne_nil hpne
        rw [hqs] at hc
        have hq0 := hpieces q0 (hqs ▸ List.mem_cons_self q0 qs)
        rw [head?_joinSep_cons hq0.2] at hc
        exact trim_head_not_ws (hq0.1.1 ▸ hc)
      · intro c hc
        rw [getLast?_joinSep (fun q hq => (hpieces q hq).2)] at hc
        cases hql : ((splitOnChar ' ' (trim (jsToLower s))).map
            normalizeSingleKey).getLast? with
        | none => rw [hql] at hc; simp at hc
        | some qlast =>
          rw [hql] at hc
          have hc2 : qlast.getLast? = some c := hc
          have hqlm := hpieces qlast (List.mem_of_getLast?_eq_some hql)
          exact trim_getLast_not_ws (hqlm.1.1 ▸ hc2)
    have hrlow : jsToLower (joinSep ' '
          ((splitOnChar ' ' (trim (jsToLower s))).map normalizeSingleKey)) =
        joinSep ' '
          ((splitOnChar ' ' (trim (jsToLower s))).map normalizeSingleKey) :=
      jsToLower_eq_self (isLow_joinSep (by decide)
        (fun q hq => (hpieces q hq).1.2.1))
    have hrsp : ' ' ∈ joinSep ' '
        ((splitOnChar ' ' (trim (jsToLower s))).map normalizeSingleKey) := by
      refine sep_mem_joinSep ?_
      rw [List.length_map]
      exact two_le_length_splitOnChar hsp
    have hrsplit : splitOnChar ' ' (joinSep ' '
          ((splitOnChar ' ' (trim (jsToLower s))).map normalizeSingleKey)) =
        (splitOnChar ' ' (trim (jsToLower s))).map normalizeSingleKey :=
      splitOnChar_joinSep hpne (fun q hq => (hpieces q hq).1.2.2)
    rw [heq, normalizeKey_eq, hrlow, hrtrim, if_pos hrsp, hrsplit]
    have hfix : ∀ q ∈ (splitOnChar ' ' (trim (jsToLower s))).map
        normalizeSingleKey, normalizeSingleKey q = q := by
      intro q hq
      rw [List.mem_map] at hq
      obtain ⟨chord, hchord, rfl⟩ := hq
      exact nsk_fix (not_sep_of_mem_splitOnChar hchord) (hw chord hchord)
    have hmap : ((splitOnChar ' ' (trim (jsToLower s))).map
          normalizeSingleKey).map normalizeSingleKey =
        (splitOnChar ' ' (trim (jsToLower s))).map normalizeSingleKey := by
      have h2 := List.map_congr_left hfix
      simpa using h2
    rw [hmap]
  · have hchord : trim (jsToLower s) ∈ splitOnChar ' ' (trim (jsToLower s)) := by
      rw [splitOnChar_of_not_mem hsp]
      exact List.mem_cons_self _ _
    have heq : normalizeKey s = normalizeSingleKey (trim (jsToLower s)) := by
      rw [normalizeKey_eq, if_neg hsp]
    obtain ⟨htr, hlow, hspk⟩ := nsk_clean hsp
    rw [heq, normalizeKey_eq, jsToLower_eq_self hlow, htr, if_neg hspk]
    exact nsk_fix hsp (hw _ hchord)

/-! ### Lemmas: grouping and conflict detection -/

theorem liveFilter_append (k : Str) (pre : List KeybindingInfo)
    (b : KeybindingInfo) (disabled : List Str) :
    liveFilter k (pre ++ [b]) disabled =
      liveFilter k pre disabled ++
        (if b.key == k && !(disabled.contains b.command) then [b] else []) := by
  rw [liveFilter, liveFilter, List.filter_append]
  congr 1
  rw [List.filter_cons, List.filter_nil]

/-- One step of the grouping loop preserves the grouping invariant: every
entry of the map is exactly the list of live bindings of its key seen so
far, and every key with a live binding so far has an entry. -/
theorem stepGroup_inv {disabled : List Str}
    {gs : List (Str × List KeybindingInfo)} {pre : List KeybindingInfo}
    (b : KeybindingInfo)
    (h1 : ∀ p ∈ gs, p.2 = liveFilter p.1 pre disabled)
    (h2 : ∀ k, liveFilter k pre disabled ≠ [] →
      gs.any (fun p => p.1 == k) = true) :
    (∀ p ∈ stepGroup disabled gs b, p.2 = liveFilter p.1 (pre ++ [b]) disabled) ∧
      (∀ k, liveFilter k (pre ++ [b]) disabled ≠ [] →
        (stepGroup disabled gs b).any (fun p => p.1 == k) = true) := by
  rw [stepGroup]
  by_cases hdis : disabled.contains b.command = true
  · rw [if_pos hdis]
    have hsame : ∀ k, liveFilter k (pre ++ [b]) disabled =
        liveFilter k pre disabled := by
      intro k
      rw [liveFilter_append, hdis]
      simp
    exact ⟨fun p hp => (hsame p.1).symm ▸ h1 p hp,
      fun k hk => h2 k (fun hc => hk (by rw [hsame k, hc]))⟩
  · rw [if_neg hdis]
    have hdis2 : disabled.contains b.command = false := by
      cases hx : disabled.contains b.command
      · rfl
      · exact absurd hx hdis
    have hlive : ∀ k, liveFilter k (pre ++ [b]) disabled =
        liveFilter k pre disabled ++ (if b.key == k then [b] else []) := by
      intro k
      rw [liveFilter_append, hdis2]
      simp
    by_cases hany : gs.any (fun p => p.1 == b.key) = true
    · rw [if_pos hany]
      have hfst : ∀ q : Str × List KeybindingInfo,
          ((fun p => if p.1 == b.key then (p.1, p.2 ++ [b]) else p) q).1 =
            q.1 := by
        intro q
        by_cases hq : (q.1 == b.key) = true
        · simp [hq]
        · simp [hq]
      constructor
      · intro p hp
        rw [List.mem_map] at hp
        obtain ⟨q, hq, rfl⟩ := hp
        by_cases hqk : (q.1 == b.key) = true
        · rw [if_pos hqk]
          rw [beq_iff_eq] at hqk
          have hkq : (b.key == q.1) = true := beq_iff_eq.mpr hqk.symm
          rw [hlive q.1, if_pos hkq]
          exact congrArg (fun l => l ++ [b]) (h1 q hq)
        · rw [if_neg hqk]
          have hbkq : ¬ (b.key == q.1) = true := by
            intro hc
            rw [beq_iff_eq] at hc hqk
            exact hqk hc.symm
          rw [hlive q.1, if_neg hbkq, List.append_nil]
          exact h1 q hq
      · intro k hk
        have hanyeq : ((gs.map
              (fun p => if p.1 == b.key then (p.1, p.2 ++ [b]) else p)).any
              (fun p => p.1 == k)) = gs.any (fun p => p.1 == k) := by
          rw [List.any_map]
          have hfun : ((fun p : Str × List KeybindingInfo => p.1 == k) ∘
              (fun p => if p.1 == b.key then (p.1, p.2 ++ [b]) else p)) =
                (fun p : Str × List KeybindingInfo => p.1 == k) := by
            funext q
            have := hfst q
            simp only [Function.comp_apply]
            rw [this]
          rw [hfun]
        rw [hanyeq]
        rw [hlive k] at hk
        by_cases hbk : (b.key == k) = true
        · rw [beq_iff_eq] at hbk
          rw [← hbk]
          exact hany
        · rw [if_neg hbk, List.append_nil] at hk
          exact h2 k hk
    · rw [if_neg hany]
      constructor
      · intro p hp
        rcases List.mem_append.mp hp with hp | hp
        · have hne : ¬ (b.key == p.1) = true := by
            intro hc
            rw [beq_iff_eq] at hc
            apply hany
            rw [List.any_eq_true]
            exact ⟨p, hp, beq_iff_eq.mpr hc.symm⟩
          rw [hlive p.1, if_neg hne, List.append_nil]
          exact h1 p hp
        · rw [List.mem_singleton] at hp
          subst hp
          have hpre : liveFilter b.key pre disabled = [] := by
            by_contra hc
            exact hany (h2 b.key hc)
          rw [hlive, hpre, List.nil_append, if_pos (beq_iff_eq.mpr rfl)]
      · intro k hk
        rw [List.any_append, Bool.or_eq_true]
        by_cases hbk : (b.key == k) = true
        · exact Or.inr (by simp [hbk])
        · rw [hlive k, if_neg hbk, List.append_nil] at hk
          exact Or.inl (h2 k hk)

theorem groupByKey_go {disabled : List Str} :
    ∀ (rest : List KeybindingInfo) (gs : List (Str × List KeybindingInfo))
      (pre : List KeybindingInfo),
      (∀ p ∈ gs, p.2 = liveFilter p.1 pre disabled) →
      (∀ k, liveFilter k pre disabled ≠ [] →
        gs.any (fun p => p.1 == k) = true) →
      ∀ p ∈ rest.foldl (stepGroup disabled) gs,
        p.2 = liveFilter p.1 (pre ++ rest) disabled := by
  intro rest
  induction rest with
  | nil =>
    intro gs pre h1 _ p hp
    rw [List.append_nil]
    exact h1 p hp
  | cons b rest2 ih =>
    intro gs pre h1 h2 p hp
    rw [List.foldl_cons] at hp
    have hstep := stepGroup_inv b h1 h2
    have hres := ih (stepGroup disabled gs b) (pre ++ [b]) hstep.1 hstep.2 p hp
    rw [List.append_assoc] at hres
    exact hres

/-- Every group built by the grouping loop of `findConflicts` is exactly
the list, in collection order, of the not-disabled bindings of its key. -/
theorem groupByKey_spec {bindings : List KeybindingInfo} {disabled : List Str} :
    ∀ p ∈ groupByKey bindings disabled,
      p.2 = liveFilter p.1 bindings disabled := by
  intro p hp
  have h0 : ∀ q ∈ ([] : List (Str × List KeybindingInfo)),
      q.2 = liveFilter q.1 [] disabled := by
    intro q hq
    exact absurd hq (List.not_mem_nil q)
  have hcov : ∀ k, liveFilter k ([] : List KeybindingInfo) disabled ≠ [] →
      ([] : List (Str × List KeybindingInfo)).any (fun q => q.1 == k) = true :=
    fun k hk => absurd rfl hk
  have hres := groupByKey_go bindings [] [] h0 hcov p hp
  rw [List.nil_append] at hres
  exact hres

/-- Membership in the result of `findConflicts`: the group is exactly the
live bindings of its key, has more than one member, and spans more than
one distinct extension identifier. -/
theorem mem_findConflicts {bindings : List KeybindingInfo}
    {disabled : List Str} {g : ConflictGroup}
    (hg : g ∈ findConflicts bindings disabled) :
    g.bindings = liveFilter g.key bindings disabled ∧
      1 < g.bindings.length ∧
      1 < (g.bindings.map (fun b => b.extensionId)).dedup.length := by
  rw [findConflicts] at hg
  have hg2 := (List.perm_insertionSort groupLe _).mem_iff.mp hg
  rw [List.mem_map] at hg2
  obtain ⟨p, hpf, rfl⟩ := hg2
  have hpm := List.mem_filter.mp hpf
  have hcond := hpm.2
  rw [Bool.and_eq_true] at hcond
  have hlen := of_decide_eq_true hcond.1
  have hext := of_decide_eq_true hcond.2
  exact ⟨groupByKey_spec p hpm.1, hlen, hext⟩

/-! ### The claims -/

/-- C1: every conflict group returned by a scan has at least two member
bindings whose extension identifiers span at least two distinct values;
and for a key all of whose bindings share one extension identifier, no
conflict group with that key is emitted. -/
theorem claim_C1 :
    (∀ (bindings : List KeybindingInfo) (disabled : List Str)
        (g : ConflictGroup), g ∈ findConflicts bindings disabled →
        2 ≤ g.bindings.length ∧
          2 ≤ (g.bindings.map (fun b => b.extensionId)).dedup.length) ∧
      (∀ (bindings : List KeybindingInfo) (disabled : List Str) (k e : Str),
        (∀ b ∈ bindings, b.key = k → b.extensionId = e) →
        (findConflicts bindings disabled).countP (fun g => g.key == k) = 0) := by
  constructor
  · intro bindings disabled g hg
    obtain ⟨_, hlen, hext⟩ := mem_findConflicts hg
    exact ⟨hlen, hext⟩
  · intro bindings disabled k e hall
    rw [List.countP_eq_zero]
    intro g hg hgk
    rw [beq_iff_eq] at hgk
    obtain ⟨hbind, _, hext⟩ := mem_findConflicts hg
    have hconst : ∀ x ∈ g.bindings.map (fun b => b.extensionId), x = e := by
      intro x hx
      rw [List.mem_map] at hx
      obtain ⟨b, hb, rfl⟩ := hx
      rw [hbind, liveFilter] at hb
      have hbm := List.mem_filter.mp hb
      have hkey : b.key = g.key := by
        have := hbm.2
        rw [Bool.and_eq_true] at this
        exact beq_iff_eq.mp this.1
      exact hall b hbm.1 (hgk ▸ hkey)
    have := dedup_length_le_one hconst
    omega

/-- C1 witness: the two-extension collision on `ctrl+x` yields a group
with two members from two extensions, and the same-extension collision
on `ctrl+x` yields no group with that key. -/
theorem claim_C1_witness :
    (2 ≤ gAB.bindings.length ∧
      2 ≤ (gAB.bindings.map (fun b => b.extensionId)).dedup.length) ∧
    (findConflicts [bA, bA2] []).countP (fun g => g.key == str "ctrl+x") = 0 :=
  ⟨claim_C1.1 [bA, bB] [] gAB (by decide),
   claim_C1.2 [bA, bA2] [] (str "ctrl+x") (str "ext.a") (by decide)⟩

/-- C2: no binding of a user-disabled command (removal-prefix entry or
empty/absent key) occurs in any reported conflict group, and a key with at
most one live binding yields no group. -/
theorem claim_C2 :
    (∀ (entries : List UserKeybindingEntry) (bindings : List KeybindingInfo)
        (c : Str), c ∈ getUserDisabledCommands entries →
        ∀ g ∈ findConflicts bindings (getUserDisabledCommands entries),
          g.bindings.countP (fun b => b.command == c) = 0) ∧
      (∀ (entries : List UserKeybindingEntry) (bindings : List KeybindingInfo)
        (k : Str),
        bindings.countP (fun b => b.key == k &&
          !((getUserDisabledCommands entries).contains b.command)) ≤ 1 →
        (findConflicts bindings (getUserDisabledCommands entries)).countP
          (fun g => g.key == k) = 0) := by
  constructor
  · intro entries bindings c hc g hg
    obtain ⟨hbind, _, _⟩ := mem_findConflicts hg
    rw [List.countP_eq_zero]
    intro b hb hbc
    rw [beq_iff_eq] at hbc
    rw [hbind, liveFilter] at hb
    have hbm := List.mem_filter.mp hb
    have hlivepred := hbm.2
    rw [Bool.and_eq_true] at hlivepred
    have hnfalse : (getUserDisabledCommands entries).contains b.command =
        false := by
      cases hx : (getUserDisabledCommands entries).contains b.command
      · rfl
      · rw [hx] at hlivepred
        simp at hlivepred
    have hct : (getUserDisabledCommands entries).contains b.command = true := by
      rw [hbc]
      exact List.elem_iff.mpr hc
    rw [hnfalse] at hct
    exact Bool.false_ne_true hct
  · intro entries bindings k hcount
    rw [List.countP_eq_zero]
    intro g hg hgk
    rw [beq_iff_eq] at hgk
    obtain ⟨hbind, hlen, _⟩ := mem_findConflicts hg
    have : g.bindings.length ≤ 1 := by
      rw [hbind, hgk, liveFilter, ← List.countP_eq_length_filter]
      exact hcount
    omega

/-- C2 witness: with `c.one` disabled by a removal-prefix entry, the
reported group for `ctrl+x` contains no `c.one` binding, and a collision
left with a single live member yields no group for that key. -/
theorem claim_C2_witness :
    gAB.bindings.countP (fun b => b.command == str "c.one") = 0 ∧
    (findConflicts [bA, bC1] (getUserDisabledCommands [entDisableC])).countP
      (fun g => g.key == str "ctrl+x") = 0 :=
  ⟨claim_C2.1 [entDisableC] [bA, bB, bC1] (str "c.one") (by decide) gAB
      (by decide),
   claim_C2.2 [entDisableC] [bA, bC1] (str "ctrl+x") (by decide)⟩

/-- C3 counterexample: spaces around `+` are treated as chord separators
(the space check of `normalizeKey` runs before the `+`-split), so
`normalize(" ctrl + c ")` is `"ctrl  c"`, not `"ctrl+c"`, and differs from
`normalize("CTRL+C")`. -/
theorem claim_C3_counterexample :
    normalizeKey (str " ctrl + c ") ≠ str "ctrl+c" ∧
    normalizeKey (str " ctrl + c ") ≠ normalizeKey (str "CTRL+C") := by
  decide

/-- C3 (amended): `normalize` is invariant under case and under leading and
trailing whitespace — `normalize("CTRL+C") = normalize("  ctrl+c  ") =
"ctrl+c"` — but a space adjacent to `+` inside a combo acts as a chord
separator, so `normalize(" ctrl + c ") = "ctrl  c"`. -/
theorem claim_C3 :
    normalizeKey (str "CTRL+C") = str "ctrl+c" ∧
    normalizeKey (str "  ctrl+c  ") = str "ctrl+c" ∧
    normalizeKey (str " ctrl + c ") = str "ctrl  c" := by
  decide

/-- C4 counterexample: on the colliding punctuation keys `ctrl+,` and
`ctrl+-` the scan returns the groups in the collation order
`["ctrl+-", "ctrl+,"]` — hyphen collates before comma under the runtime's
`localeCompare` — which is not ascending under lexicographic code-point
comparison (`','` is 44, `'-'` is 45). -/
theorem claim_C4_counterexample :
    (findConflicts [bCommaA, bCommaB, bMinusA, bMinusB] []).map
        (fun g => g.key) = [str "ctrl+-", str "ctrl+,"] ∧
      strLeB (str "ctrl+-") (str "ctrl+,") = false ∧
      ¬ (findConflicts [bCommaA, bCommaB, bMinusA, bMinusB] []).Pairwise
          (fun g1 g2 => strLeB g1.key g2.key = true) := by
  refine ⟨by decide, by decide, ?_⟩
  decide

/-- The canonical key of every reported group is the key of one of the
scanned bindings. -/
theorem findConflicts_key_mem {bindings : List KeybindingInfo}
    {disabled : List Str} {g : ConflictGroup}
    (hg : g ∈ findConflicts bindings disabled) :
    ∃ b ∈ bindings, b.key = g.key := by
  obtain ⟨hbind, hlen, _⟩ := mem_findConflicts hg
  obtain ⟨b, hb⟩ : ∃ b, b ∈ g.bindings := by
    cases hx : g.bindings with
    | nil => rw [hx] at hlen; simp at hlen
    | cons c t => exact ⟨c, hx ▸ List.mem_cons_self c t⟩
  rw [hbind, liveFilter] at hb
  have hbm := List.mem_filter.mp hb
  have h2 := hbm.2
  rw [Bool.and_eq_true] at h2
  exact ⟨b, hbm.1, beq_iff_eq.mp h2.1⟩

/-- C4 (amended): the returned group list is sorted ascending by the
comparator the code passes to the sort — `localeCompare`, the runtime's
collation — and on scans whose keys consist only of space, `+`, digits
and lowercase letters this coincides with ascending lexicographic
code-point order; punctuation keys can come out in non-lexicographic
order. -/
theorem claim_C4 :
    (∀ (bindings : List KeybindingInfo) (disabled : List Str),
      (findConflicts bindings disabled).Pairwise groupLe) ∧
      (∀ (bindings : List KeybindingInfo) (disabled : List Str),
        (∀ b ∈ bindings, ∀ c ∈ b.key, c ∈ sortableChars) →
        (findConflicts bindings disabled).Pairwise
          (fun g1 g2 => strLeB g1.key g2.key = true)) := by
  have hsorted : ∀ (bindings : List KeybindingInfo) (disabled : List Str),
      (findConflicts bindings disabled).Pairwise groupLe := by
    intro bindings disabled
    rw [findConflicts]
    exact List.sorted_insertionSort groupLe _
  refine ⟨hsorted, ?_⟩
  intro bindings disabled hchars
  refine List.Pairwise.imp_of_mem ?_ (hsorted bindings disabled)
  intro g1 g2 hg1 hg2 hle
  obtain ⟨b1, hb1, hk1⟩ := findConflicts_key_mem hg1
  obtain ⟨b2, hb2, hk2⟩ := findConflicts_key_mem hg2
  have hle2 : localeLeB g1.key g2.key = true := hle
  show strLeB g1.key g2.key = true
  rw [← localeLeB_eq_strLeB g1.key g2.key (hk1 ▸ hchars b1 hb1)
    (hk2 ▸ hchars b2 hb2)]
  exact hle2

/-- C4 witness: on the alphanumeric scan of `bA` and `bB` the returned
group list is lexicographically sorted. -/
theorem claim_C4_witness :
    (findConflicts [bA, bB] []).Pairwise
      (fun g1 g2 => strLeB g1.key g2.key = true) :=
  claim_C4.2 [bA, bB] [] (by decide)

/-- C5 counterexample: the candidate `"shift+ctrl+v"` normalizes (by the
scanner's Normalizer) to the stored key `"ctrl+shift+v"` of a different
command, yet validation accepts it and reassignment proceeds to write. -/
theorem claim_C5_counterexample :
    normalizeKey (str "shift+ctrl+v") = b0.key ∧
    b0.command ≠ cb0.command ∧
    validateKeybinding (some (str "shift+ctrl+v")) cb0 [b0] = none ∧
    reassignKeybinding cb0 (str "shift+ctrl+v") [b0] [] =
      Except.ok
        [{ key := some cb0.key, command := some ('-' :: cb0.command),
           when := none },
         { key := some (str "shift+ctrl+v"), command := some cb0.command,
           when := none }] :=
  ⟨by decide, by decide, by decide, rfl⟩

/-- C5 (amended): the duplicate check of reassignment compares only the
lowercased and trimmed candidate with stored canonical keys; when that
string equals the key of a binding with a different command, the operation
is refused with an error naming the conflicting command and extension and
no updated override list is produced. -/
theorem claim_C5 (binding : KeybindingInfo) (newKey : Str)
    (allBindings : List KeybindingInfo) (current : List UserKeybindingEntry)
    (h : ∃ b ∈ allBindings, b.key = trim (jsToLower newKey) ∧
      b.command ≠ binding.command) :
    ∃ c ∈ allBindings, c.key = trim (jsToLower newKey) ∧
      c.command ≠ binding.command ∧
      reassignKeybinding binding newKey allBindings current =
        Except.error
          { command := c.command, extensionName := c.extensionName } := by
  obtain ⟨b, hb, hkey, hcmd⟩ := h
  cases hf : allBindings.find?
      (fun x => x.key == trim (jsToLower newKey) &&
        x.command != binding.command) with
  | none =>
    exfalso
    have hnone := List.find?_eq_none.mp hf b hb
    apply hnone
    rw [Bool.and_eq_true]
    exact ⟨beq_iff_eq.mpr hkey, bne_iff_ne.mpr hcmd⟩
  | some c =>
    have hcm := List.mem_of_find?_eq_some hf
    have hcp := List.find?_some hf
    rw [Bool.and_eq_true] at hcp
    refine ⟨c, hcm, beq_iff_eq.mp hcp.1, bne_iff_ne.mp hcp.2, ?_⟩
    rw [reassignKeybinding, hf]

/-- C5 witness: reassigning `my.cmd` to the exact stored key
`ctrl+shift+v` of `other.cmd` is refused naming that command and its
extension. -/
theorem claim_C5_witness :
    reassignKeybinding cb0 (str "ctrl+shift+v") [b0] [] =
      Except.error
        { command := b0.command, extensionName := b0.extensionName } := by
  obtain ⟨c, hc, _, _, he⟩ := claim_C5 cb0 (str "ctrl+shift+v") [b0] []
    ⟨b0, List.mem_cons_self b0 [], by decide, by decide⟩
  rw [List.mem_singleton] at hc
  subst hc
  exact he

/-- C6 counterexample: the synonyms `control` and `option` both get
comparator index `-1`, so they sort before every canonical modifier rather
than into their canonical slot (`normalize("ctrl+option+v") =
"option+ctrl+v"`), and two synonyms keep their input order under the
stable sort, so permuting them changes the result. -/
theorem claim_C6_counterexample :
    normalizeKey (str "control+option+v") = str "control+option+v" ∧
    normalizeKey (str "option+control+v") = str "option+control+v" ∧
    normalizeKey (str "control+option+v") ≠
      normalizeKey (str "option+control+v") ∧
    normalizeKey (str "ctrl+option+v") = str "option+ctrl+v" := by
  decide

/-- C6 (amended): `normalize` is commutative over modifier order within
one sub-combo when the modifiers are drawn from the canonical vocabulary
`[ctrl, cmd, alt, shift, meta, win]` (each has a distinct precedence
index), and in particular `normalize("shift+ctrl+v") =
normalize("ctrl+shift+v") = "ctrl+shift+v"`; recognized synonyms are
classified as modifiers but sort before all canonical modifiers at index
`-1`, ties among distinct synonyms keeping input order. -/
theorem claim_C6 :
    (∀ (ms1 ms2 : List Str) (mk : Str), ms1.Perm ms2 →
      (∀ m ∈ ms1, m ∈ modifierOrder) →
      isModifierKey mk = false → mk ≠ [] → trim mk = mk → IsLow mk →
      '+' ∉ mk → ' ' ∉ mk →
      normalizeKey (joinSep '+' (ms1 ++ [mk])) =
        normalizeKey (joinSep '+' (ms2 ++ [mk]))) ∧
    normalizeKey (str "shift+ctrl+v") = str "ctrl+shift+v" ∧
    normalizeKey (str "ctrl+shift+v") = str "ctrl+shift+v" := by
  refine ⟨?_, by decide, by decide⟩
  intro ms1 ms2 mk hperm hms1 hmkmod hmkne hmktrim hmklow hmkplus hmksp
  have hms2 : ∀ m ∈ ms2, m ∈ modifierOrder :=
    fun m hm => hms1 m (hperm.mem_iff.mpr hm)
  have hcanon : ∀ m ∈ modifierOrder,
      trim m = m ∧ IsLow m ∧ '+' ∉ m ∧ ' ' ∉ m ∧ isModifierKey m = true := by
    decide
  have hside : ∀ ms : List Str, (∀ m ∈ ms, m ∈ modifierOrder) →
      normalizeKey (joinSep '+' (ms ++ [mk])) =
        joinSep '+' (List.insertionSort modLe ms ++ [mk]) := by
    intro ms hms
    have hclean : ∀ p ∈ ms ++ [mk],
        trim p = p ∧ IsLow p ∧ '+' ∉ p ∧ ' ' ∉ p := by
      intro p hp
      rcases List.mem_append.mp hp with hp | hp
      · obtain ⟨u1, u2, u3, u4, _⟩ := hcanon p (hms p hp)
        exact ⟨u1, u2, u3, u4⟩
      · rw [List.mem_singleton] at hp
        subst hp
        exact ⟨hmktrim, hmklow, hmkplus, hmksp⟩
    have hlow0 : jsToLower (joinSep '+' (ms ++ [mk])) =
        joinSep '+' (ms ++ [mk]) :=
      jsToLower_eq_self (isLow_joinSep (by decide)
        (fun p hp => (hclean p hp).2.1))
    have htrim0 : trim (joinSep '+' (ms ++ [mk])) = joinSep '+' (ms ++ [mk]) :=
      trim_joinSep_fix (by decide) (fun p hp => (hclean p hp).1)
    have hsp0 : ' ' ∉ joinSep '+' (ms ++ [mk]) :=
      not_mem_joinSep (by decide) (fun p hp => (hclean p hp).2.2.2)
    rw [normalizeKey_eq, hlow0, htrim0, if_neg hsp0]
    exact nsk_joinSep_mods_main
      (fun m hm => (hcanon m (hms m hm)).2.2.2.2) hclean hmkmod hmkne
  rw [hside ms1 hms1, hside ms2 hms2]
  have hsorteq : List.insertionSort modLe ms1 = List.insertionSort modLe ms2 := by
    refine @sorted_perm_eq_on Str modLe _ _ ?_ ?_ ?_ ?_
    · exact ((List.perm_insertionSort modLe ms1).trans hperm).trans
        (List.perm_insertionSort modLe ms2).symm
    · exact List.sorted_insertionSort modLe ms1
    · exact List.sorted_insertionSort modLe ms2
    · intro a ha b hb hab hba
      have ham : a ∈ modifierOrder :=
        hms1 a ((List.perm_insertionSort modLe ms1).mem_iff.mp ha)
      have hbm : b ∈ modifierOrder :=
        hms1 b ((List.perm_insertionSort modLe ms1).mem_iff.mp hb)
      revert hab hba
      exact (by decide :
        ∀ x ∈ modifierOrder, ∀ y ∈ modifierOrder,
          modLe x y → modLe y x → x = y) a ham b hbm
  rw [hsorteq]

/-- C6 witness: the permutation instance `shift+ctrl+v` versus
`ctrl+shift+v` via the general commutativity statement. -/
theorem claim_C6_witness :
    normalizeKey (joinSep '+' ([str "shift", str "ctrl"] ++ [str "v"])) =
      normalizeKey (joinSep '+' ([str "ctrl", str "shift"] ++ [str "v"])) :=
  claim_C6.1 [str "shift", str "ctrl"] [str "ctrl", str "shift"] (str "v")
    (by decide) (by decide) (by decide) (by decide) (by decide) (by decide)
    (by decide) (by decide)

/-- C7: chord order is never canonicalized away, and a chord never equals
a single combo. -/
theorem claim_C7 :
    normalizeKey (str "ctrl+k ctrl+s") ≠ normalizeKey (str "ctrl+s ctrl+k") ∧
    normalizeKey (str "ctrl+k ctrl+n") ≠ normalizeKey (str "ctrl+n") := by
  decide

/-- C8: `normalize` is idempotent on well-formed key-combo strings. -/
theorem claim_C8 (x : Str) (h : wellFormedKey x = true) :
    normalizeKey (normalizeKey x) = normalizeKey x :=
  normalizeKey_idem h

/-- C8 witness: idempotence at the well-formed chord `"Shift+Ctrl+K V"`. -/
theorem claim_C8_witness :
    wellFormedKey (str "Shift+Ctrl+K V") = true ∧
    normalizeKey (normalizeKey (str "Shift+Ctrl+K V")) =
      normalizeKey (str "Shift+Ctrl+K V") :=
  ⟨by decide, claim_C8 (str "Shift+Ctrl+K V") (by decide)⟩

/-- C9: evaluation of the validator at the failing input — the single
modifier `"ctrl"` is rejected as modifier-only, but the modifier-only
combo `"ctrl+shift"` is accepted because the check requires exactly one
component. -/
theorem claim_C9_eval :
    validateKeybinding (some (str "ctrl")) cb0 [] =
      some ValidationError.onlyModifiers ∧
    validateKeybinding (some (str "ctrl+shift")) cb0 [] = none := by
  decide

/-- C10: after a scan, `getAllBindings` exposes exactly the full collected
binding list — including bindings of user-disabled commands and bindings
in same-extension groups — independently of the override entries; the
filters only shape the conflict list. -/
theorem claim_C10 (exts : List ExtensionManifest) (p : Platform)
    (entries : List UserKeybindingEntry) (b : KeybindingInfo)
    (hb : b ∈ collectAllKeybindings exts p) :
    (scanConflicts exts p entries).allBindings =
        collectAllKeybindings exts p ∧
      b ∈ (scanConflicts exts p entries).allBindings ∧
      ∀ entries2, (scanConflicts exts p entries2).allBindings =
        (scanConflicts exts p entries).allBindings :=
  ⟨rfl, hb, fun _ => rfl⟩

/-- C10 witness: with `a.one` user-disabled and both of the extension's
bindings in a same-extension group (so the conflict list is empty), the
full binding set is still exposed and contains the `a.one` binding. -/
theorem claim_C10_witness :
    (scanConflicts [mExtA] Platform.win32 [entDisableA]).allBindings =
        collectAllKeybindings [mExtA] Platform.win32 ∧
      bA ∈ (scanConflicts [mExtA] Platform.win32 [entDisableA]).allBindings := by
  have h := claim_C10 [mExtA] Platform.win32 [entDisableA] bA (by decide)
  exact ⟨h.1, h.2.1⟩

end KCS
